import Mathlib

/-!
Verification development for the BlackRoad distributed config store
(`src/distributed_config.py`, class `DistributedConfig`).

The store keeps three SQLite tables:
  kv_entries(key, value, version, create_revision, mod_revision, lease_id,
             created_at, modified_at, deleted)   with PRIMARY KEY (key, mod_revision)
  leases(id, ttl_s, granted_at, expires_at, keys) with PRIMARY KEY id
  revisions(revision, timestamp, operation, key, details) with PRIMARY KEY revision
plus two in-memory counters `self.revision` and `self.compacted_rev`.

The embedding below models each table as a list of rows in insertion (rowid)
order, and each operation as a pure state transition.  Audit timestamps
(`created_at`, `modified_at`, `granted_at`, `expires_at`, `timestamp`) are
omitted: they come from the wall clock and carry no key-value semantics.
The `details` column stores `json.dumps({"version": v})` for puts; it is
modelled as the payload `v` itself (an `Option Nat`, `none` for deletes,
which insert no details).

SQLite behaviour that the Python relies on is modelled explicitly:
  - the two PRIMARY KEY constraints (an INSERT that collides fails the
    enclosing transaction; `with sqlite3.connect(...)` then rolls the
    database back while in-memory attributes such as `self.revision` keep
    their new values, and the exception propagates).  Operations therefore
    return `Option Nat × Store`: `none` means the call raised, and the
    `Store` is the post-exception state.
  - `LIKE` pattern matching (used by `get_prefix`): `%` matches any
    sequence, `_` matches one character, ASCII letters compare
    case-insensitively.
  - `ORDER BY` over TEXT uses the BINARY collation (code-point order).
-/

/-- ASCII lower-casing used by SQLite's default `LIKE` comparison. -/
def charLower (c : Char) : Char :=
  if 'A' ≤ c ∧ c ≤ 'Z' then Char.ofNat (c.toNat + 32) else c

/-- Fuel-indexed matcher for SQLite `LIKE` patterns: `%` matches any
sequence, `_` matches exactly one character, other characters match
case-insensitively (ASCII).  Each recursive call shrinks
`pattern.length + s.length`, so fuel `pattern.length + s.length + 1`
is always sufficient; the fuel only makes the kernel evaluation
structural. -/
def likeFuel : Nat → List Char → List Char → Bool
  | 0, _, _ => false
  | _ + 1, [], s => s.isEmpty
  | fuel + 1, '%' :: ps, [] => likeFuel fuel ps []
  | fuel + 1, '%' :: ps, c :: ss => likeFuel fuel ps (c :: ss) || likeFuel fuel ('%' :: ps) ss
  | _ + 1, '_' :: _, [] => false
  | fuel + 1, '_' :: ps, _ :: ss => likeFuel fuel ps ss
  | _ + 1, _ :: _, [] => false
  | fuel + 1, p :: ps, c :: ss => (charLower p == charLower c) && likeFuel fuel ps ss

/-- SQLite `s LIKE pattern` with default (case-insensitive ASCII) collation. -/
def sqlLike (pattern s : String) : Bool :=
  likeFuel (pattern.length + s.length + 1) pattern.data s.data

/-- Strict code-point order on strings: SQLite's BINARY collation for TEXT. -/
def strLtb : List Char → List Char → Bool
  | [], [] => false
  | [], _ :: _ => true
  | _ :: _, [] => false
  | a :: as, b :: bs =>
    if a.toNat < b.toNat then true
    else if b.toNat < a.toNat then false
    else strLtb as bs

/-- SQL `a < b` on TEXT columns. -/
def keyLt (a b : String) : Bool := strLtb a.data b.data

/-- SQL `a <= b` on TEXT columns. -/
def keyLe (a b : String) : Bool := !(strLtb b.data a.data)

/-- Row of the `kv_entries` table (audit timestamps omitted).  A row with
`deleted = true` is invisible to reads; `DistributedConfig.delete` flips
the flag on every row of a key. -/
structure KVRow where
  key : String
  value : String
  version : Nat
  create_revision : Nat
  mod_revision : Nat
  lease_id : Option String
  deleted : Bool
deriving DecidableEq, Repr

/-- Row of the `revisions` table (timestamp omitted; `details` holds the
version payload of `json.dumps({"version": v})` for puts, `none` for
deletes, which supply no details column). -/
structure RevRecord where
  revision : Nat
  operation : String
  key : String
  details : Option Nat
deriving DecidableEq, Repr

/-- Row of the `leases` table (timestamps omitted; `keys` is the decoded
JSON array of bound keys). -/
structure Lease where
  id : String
  ttl_s : Nat
  keys : List String
deriving DecidableEq, Repr

/-- Whole store state: the three tables plus the in-memory counters
`self.revision` and `self.compacted_rev`. -/
structure Store where
  kv : List KVRow
  log : List RevRecord
  leases : List Lease
  revision : Nat
  compacted_rev : Nat
deriving DecidableEq, Repr

/-- State right after `DistributedConfig.__init__` on a fresh database:
empty tables, `revision = 0`, `compacted_rev = 0`. -/
def initStore : Store :=
  { kv := [], log := [], leases := [], revision := 0, compacted_rev := 0 }

/-- Result of SQL `... ORDER BY mod_revision DESC LIMIT 1` over a list of
rows: the row with the greatest `mod_revision` (ties keep the earlier row;
the `(key, mod_revision)` primary key rules ties out in practice). -/
def latestBy (rows : List KVRow) : Option KVRow :=
  rows.foldl
    (fun acc r =>
      match acc with
      | none => some r
      | some b => if b.mod_revision < r.mod_revision then some r else some b)
    none

/-- PRIMARY KEY (key, mod_revision) check for an INSERT into `kv_entries`. -/
def kvInsertOk (kv : List KVRow) (row : KVRow) : Bool :=
  !(kv.any fun r => r.key == row.key && r.mod_revision == row.mod_revision)

/-- PRIMARY KEY (revision) check for an INSERT into `revisions`. -/
def logInsertOk (log : List RevRecord) (entry : RevRecord) : Bool :=
  !(log.any fun r => r.revision == entry.revision)

/-- Effect on one `kv_entries` row of
`UPDATE kv_entries SET deleted = 1 WHERE key = ?`. -/
def markDeleted (key : String) (r : KVRow) : KVRow :=
  if r.key == key then { r with deleted := true } else r

/-- Embedding of `DistributedConfig.get` (source lines 156-185).
`revision = none` is the latest-live read; `revision = some rev` adds
`mod_revision <= rev` to the WHERE clause.  Both queries filter
`deleted = 0` and take `ORDER BY mod_revision DESC LIMIT 1`. -/
def DistributedConfig.get (s : Store) (key : String) (revision : Option Nat) : Option KVRow :=
  match revision with
  | none => latestBy (s.kv.filter fun r => r.key == key && !r.deleted)
  | some rev =>
    latestBy (s.kv.filter fun r => r.key == key && decide (r.mod_revision ≤ rev) && !r.deleted)

/-- Embedding of `DistributedConfig._add_key_to_lease` (source lines
344-359): look the lease row up by id; if present and the key is not in
its decoded key list, append the key and write the row back.  A missing
lease row is silently ignored; expiry is not checked. -/
def DistributedConfig.add_key_to_lease (leases : List Lease) (lease_id key : String) :
    List Lease :=
  match leases.find? (fun l => l.id == lease_id) with
  | none => leases
  | some l =>
    if l.keys.contains key then leases
    else leases.map fun x => if x.id == lease_id then { x with keys := x.keys ++ [key] } else x

/-- Per-key version chosen by `DistributedConfig.put`: previous live
version (latest live row of the key) plus one, or 1 when no live row
exists. -/
def putVersion (s : Store) (key : String) : Nat :=
  (match latestBy (s.kv.filter fun r => r.key == key && !r.deleted) with
   | some r => r.version
   | none => 0) + 1

/-- Embedding of `DistributedConfig.put` (source lines 119-154):
look up the current live version, increment `self.revision`, insert the
new `kv_entries` row with `create_revision = mod_revision = self.revision`,
append the revision-log record, and bind the key to the lease if a
`lease_id` was given.  On a primary-key violation the transaction rolls
back but `self.revision` keeps its incremented value and the call
raises (`none`). -/
def DistributedConfig.put (s : Store) (key value : String) (lease_id : Option String) :
    Option Nat × Store :=
  let rev := s.revision + 1
  let row : KVRow :=
    { key := key, value := value, version := putVersion s key,
      create_revision := rev, mod_revision := rev, lease_id := lease_id, deleted := false }
  let entry : RevRecord :=
    { revision := rev, operation := "put", key := key, details := some (putVersion s key) }
  if kvInsertOk s.kv row && logInsertOk s.log entry then
    let leases' :=
      match lease_id with
      | some lid => DistributedConfig.add_key_to_lease s.leases lid key
      | none => s.leases
    (some rev,
     { kv := s.kv ++ [row], log := s.log ++ [entry], leases := leases',
       revision := rev, compacted_rev := s.compacted_rev })
  else
    (none, { s with revision := rev })

/-- Keys selected by `DistributedConfig.delete`: the single given key, or
(range form) the `key` column of every row with `key <= k < range_end`
and `deleted = 0` — one list element per matching row, so a key with
several live rows appears several times, exactly as `fetchall` returns
it. -/
def deleteKeysList (s : Store) (key : String) (range_end : Option String) : List String :=
  match range_end with
  | none => [key]
  | some e => (s.kv.filter fun r => keyLe key r.key && keyLt r.key e && !r.deleted).map (·.key)

/-- Loop body of `DistributedConfig.delete`: for each selected key, run
`UPDATE kv_entries SET deleted = 1 WHERE key = ?` and INSERT the
revision-log record.  All records share the one `rev`; the second insert
with the same revision violates the `revisions` primary key, failing the
transaction (`none`). -/
def applyDeletes (rev : Nat) (keys : List String) (kv : List KVRow) (log : List RevRecord) :
    Option (List KVRow × List RevRecord) :=
  match keys with
  | [] => some (kv, log)
  | k :: ks =>
    let entry : RevRecord := { revision := rev, operation := "delete", key := k, details := none }
    if logInsertOk log entry then
      applyDeletes rev ks (kv.map (markDeleted k)) (log ++ [entry])
    else none

/-- Embedding of `DistributedConfig.delete` (source lines 187-215):
increment `self.revision`, select the affected keys, then mark rows
deleted and append one log record per key, all under one transaction.
On failure the database rolls back but `self.revision` stays
incremented. -/
def DistributedConfig.delete (s : Store) (key : String) (range_end : Option String) :
    Option Nat × Store :=
  let rev := s.revision + 1
  match applyDeletes rev (deleteKeysList s key range_end) s.kv s.log with
  | some (kv', log') => (some rev, { s with kv := kv', log := log', revision := rev })
  | none => (none, { s with revision := rev })

/-- Embedding of `DistributedConfig.get_prefix` (source lines 217-237):
`SELECT ... FROM kv_entries WHERE key LIKE '<arg>%' AND deleted = 0
ORDER BY key`.  Every live row matching the LIKE pattern is returned
(not only the latest row of each key), sorted by key in BINARY order. -/
def DistributedConfig.get_pre (s : Store) (pre : String) : List KVRow :=
  List.insertionSort (fun a b : KVRow => keyLe a.key b.key = true)
    (s.kv.filter fun r => sqlLike (pre ++ "%") r.key && !r.deleted)

/-- Embedding of `DistributedConfig.list_revision_history` (source lines
408-429): all rows of the key (deleted ones included), ordered by
`mod_revision DESC`, truncated to `limit`. -/
def DistributedConfig.list_revision_history (s : Store) (key : String) (limit : Nat) :
    List KVRow :=
  ((s.kv.filter fun r => r.key == key).insertionSort
      (fun a b : KVRow => b.mod_revision ≤ a.mod_revision)).take limit

/-- Compare loop of `DistributedConfig.txn` (source lines 370-376):
`passed` starts `true` and is set to `false` by any clause that fails;
`==` fails when the key is absent or the latest live value differs,
`!=` fails when the key is present with the given value.  Other operator
strings leave `passed` untouched. -/
def compareLoop (s : Store) : List (String × String × String) → Bool → Bool
  | [], passed => passed
  | (key, op, value) :: cs, passed =>
    let entry := DistributedConfig.get s key none
    let failedEq :=
      op == "==" && (match entry with | none => true | some e => !(e.value == value))
    let failedNe :=
      op == "!=" && (match entry with | none => false | some e => e.value == value)
    compareLoop s cs (if failedEq then false else if failedNe then false else passed)

/-- Op loop of `DistributedConfig.txn` (source lines 382-388): apply each
`("put", key, value)` via `self.put` and each `("delete", key, _)` via
`self.delete`, appending `{key, revision}` to `results`; any other op
string is skipped.  An exception from put/delete propagates (`none`)
with the state reached so far (each nested call committed on its own). -/
def applyTxnOps :
    List (String × String × String) → Store → List (String × Nat) →
    Option (List (String × Nat)) × Store
  | [], s, results => (some results, s)
  | (op_type, key, value) :: ops, s, results =>
    if op_type == "put" then
      match DistributedConfig.put s key value none with
      | (some rev, s') => applyTxnOps ops s' (results ++ [(key, rev)])
      | (none, s') => (none, s')
    else if op_type == "delete" then
      match DistributedConfig.delete s key none with
      | (some rev, s') => applyTxnOps ops s' (results ++ [(key, rev)])
      | (none, s') => (none, s')
    else applyTxnOps ops s results

/-- Embedding of `DistributedConfig.txn` (source lines 365-390): evaluate
the compare clauses against the latest live values, pick
`success_ops` or `failure_ops or []`, apply them in order, and return
`{"succeeded": passed, "results": results}` together with the final
state. -/
def DistributedConfig.txn (s : Store) (compare success_ops : List (String × String × String))
    (failure_ops : Option (List (String × String × String))) :
    (Bool × Option (List (String × Nat))) × Store :=
  let passed := compareLoop s compare true
  let ops := if passed then success_ops else failure_ops.getD []
  let applied := applyTxnOps ops s []
  ((passed, applied.1), applied.2)

/-- Embedding of `DistributedConfig.compact` (source lines 396-406):
`DELETE FROM revisions WHERE revision <= ?` and
`self.compacted_rev = max(self.compacted_rev, revision)`.  There is no
check of any kind against `self.revision`, and `kv_entries` is not
touched. -/
def DistributedConfig.compact (s : Store) (revision : Nat) : Store :=
  { s with
    log := s.log.filter fun r => !(decide (r.revision ≤ revision)),
    compacted_rev := max s.compacted_rev revision }

/-- Embedding of `DistributedConfig.grant_lease` (source lines 289-304)
with the fresh uuid passed in as a parameter: INSERT the lease row with
an empty key list (primary-key conflict raises without changing
anything). -/
def DistributedConfig.grant_lease (s : Store) (lease_id : String) (ttl_s : Nat) :
    Option Unit × Store :=
  if s.leases.any (fun l => l.id == lease_id) then (none, s)
  else (some (), { s with leases := s.leases ++ [{ id := lease_id, ttl_s := ttl_s, keys := [] }] })

/-- Delete loop of `DistributedConfig.revoke_lease`: `self.delete(key)`
for each bound key (each its own committed transaction). -/
def revokeLoop : List String → Store → Store
  | [], s => s
  | k :: ks, s => revokeLoop ks (DistributedConfig.delete s k none).2

/-- Embedding of `DistributedConfig.revoke_lease` (source lines 306-320):
delete every key bound to the lease, then `DELETE FROM leases WHERE
id = ?` (a no-op for a missing lease). -/
def DistributedConfig.revoke_lease (s : Store) (lease_id : String) : Store :=
  let s' :=
    match s.leases.find? (fun l => l.id == lease_id) with
    | some l => revokeLoop l.keys s
    | none => s
  { s' with leases := s'.leases.filter fun l => !(l.id == lease_id) }

/-- Column list of the `revisions` table, from the CREATE TABLE statement
in `DistributedConfig._init_db` (source lines 104-112). -/
def revisionsTableColumns : List String :=
  ["revision", "timestamp", "operation", "key", "details"]

/-- Columns named by the watch polling query
`SELECT key, value, operation FROM revisions r ...` in
`DistributedConfig.watch` (source lines 263-268). -/
def watchSelectColumns : List String := ["key", "value", "operation"]

/-- Truth value of one txn compare clause as the spec states it: `==`
holds when the key is live with exactly the given value; `!=` holds when
the key is absent or its latest live value differs; any other operator
string is vacuously passing (the code never fails on it). -/
def clauseHolds (s : Store) (c : String × String × String) : Bool :=
  let entry := DistributedConfig.get s c.1 none
  if c.2.1 == "==" then (match entry with | none => false | some e => e.value == c.2.2)
  else if c.2.1 == "!=" then (match entry with | none => true | some e => !(e.value == c.2.2))
  else true

/-- Branch of ops that a txn applies: `success_ops` when every clause
holds, else `failure_ops` (empty when omitted). -/
def txnBranch (s : Store) (compare success_ops : List (String × String × String))
    (failure_ops : Option (List (String × String × String))) :
    List (String × String × String) :=
  if compare.all (clauseHolds s) then success_ops else failure_ops.getD []

/-- Expected txn results list: one `(key, revision)` pair per applied put
or delete, with consecutive revisions starting at `r0 + 1`. -/
def txnExpectedResults (r0 : Nat) : List (String × String × String) → List (String × Nat)
  | [] => []
  | (op_type, key, _) :: ops =>
    if op_type == "put" || op_type == "delete" then
      (key, r0 + 1) :: txnExpectedResults (r0 + 1) ops
    else txnExpectedResults r0 ops

/-- Number of revisions a list of txn ops consumes (one per put or
delete). -/
def countMut : List (String × String × String) → Nat
  | [] => 0
  | (op_type, _, _) :: ops =>
    (if op_type == "put" || op_type == "delete" then 1 else 0) + countMut ops

/-- Every table row's revision is bounded by the in-memory counter.  This
holds in every reachable state and is what makes the primary-key inserts
of put and single-key delete succeed. -/
def RevBounded (s : Store) : Prop :=
  (∀ r ∈ s.kv, r.mod_revision ≤ s.revision) ∧ (∀ r ∈ s.log, r.revision ≤ s.revision)

/-- States reachable from a fresh store through the public mutating API. -/
inductive Reachable : Store → Prop where
  | init : Reachable initStore
  | put (s : Store) (k v : String) (lid : Option String) :
      Reachable s → Reachable (DistributedConfig.put s k v lid).2
  | delete (s : Store) (k : String) (e : Option String) :
      Reachable s → Reachable (DistributedConfig.delete s k e).2
  | txn (s : Store) (c so : List (String × String × String))
      (fo : Option (List (String × String × String))) :
      Reachable s → Reachable (DistributedConfig.txn s c so fo).2
  | compact (s : Store) (r : Nat) : Reachable s → Reachable (DistributedConfig.compact s r)
  | grant (s : Store) (lid : String) (ttl : Nat) :
      Reachable s → Reachable (DistributedConfig.grant_lease s lid ttl).2
  | revoke (s : Store) (lid : String) :
      Reachable s → Reachable (DistributedConfig.revoke_lease s lid)

/-- State after `put("a", "1")` on a fresh store (revision 1). -/
def stA1 : Store := (DistributedConfig.put initStore "a" "1" none).2

/-- State after `put("a", "1"); delete("a")` (revision 2). -/
def stA1del : Store := (DistributedConfig.delete stA1 "a" none).2

/-- State after `put("a", "1"); put("a", "2")` (revision 2). -/
def stA12 : Store := (DistributedConfig.put stA1 "a" "2" none).2

/-- State after `put("a", "x"); put("b", "y")` (revision 2, two live keys). -/
def stAB : Store :=
  (DistributedConfig.put (DistributedConfig.put initStore "a" "x" none).2 "b" "y" none).2

/-- State after `put("k", "a")` on a fresh store (revision 1). -/
def stK : Store := (DistributedConfig.put initStore "k" "a" none).2

/-- State with one lease `lease-1` and nothing else (fresh store after
`grant_lease`). -/
def stLease : Store := (DistributedConfig.grant_lease initStore "lease-1" 5).2

/-- The `kv_entries` row a successful put inserts. -/
def putRow (s : Store) (key value : String) (lease_id : Option String) : KVRow :=
  { key := key, value := value, version := putVersion s key,
    create_revision := s.revision + 1, mod_revision := s.revision + 1,
    lease_id := lease_id, deleted := false }

/-- The `revisions` record a successful put appends. -/
def putRec (s : Store) (key : String) : RevRecord :=
  { revision := s.revision + 1, operation := "put", key := key,
    details := some (putVersion s key) }

/-- The lease table after a put (source lines 149-151). -/
def putLeases (s : Store) (key : String) (lease_id : Option String) : List Lease :=
  match lease_id with
  | some lid => DistributedConfig.add_key_to_lease s.leases lid key
  | none => s.leases

/-- The store a successful put produces. -/
def putSucc (s : Store) (key value : String) (lease_id : Option String) : Store :=
  { kv := s.kv ++ [putRow s key value lease_id], log := s.log ++ [putRec s key],
    leases := putLeases s key lease_id, revision := s.revision + 1,
    compacted_rev := s.compacted_rev }

/-- The `revisions` record a single-key delete appends. -/
def delRec (s : Store) (key : String) : RevRecord :=
  { revision := s.revision + 1, operation := "delete", key := key, details := none }

/-- The store a successful single-key delete produces. -/
def delSucc (s : Store) (key : String) : Store :=
  { s with kv := s.kv.map (markDeleted key), log := s.log ++ [delRec s key],
           revision := s.revision + 1 }

/-- Claim C1 (code bug): the claim says a historical read `get(k, R)` is
stable under later mutations — a delete of `k` at a revision greater than
`R` must not change `get(k, R)`.  The code's delete flips `deleted = 1`
on every row of the key, so after `put("a","1") = 1; delete("a") = 2`
the read `get("a", 1)`, which returned the revision-1 entry before the
delete, returns absent afterwards. -/
theorem get_at_revision_destroyed_by_delete :
    (DistributedConfig.delete stA1 "a" none).1 = some 2
  ∧ DistributedConfig.get stA1 "a" (some 1) =
      some { key := "a", value := "1", version := 1, create_revision := 1,
             mod_revision := 1, lease_id := none, deleted := false }
  ∧ DistributedConfig.get stA1del "a" (some 1) = none := by decide

/-- Claim C2 (code bug): the claim says a put over a live entry keeps the
previous `create_revision` (concretely `create_revision = 1` after
`put("a","1"); put("a","2")`).  The code writes
`create_revision = mod_revision = self.revision` on every put, so the
second put yields `create_revision = 2`. -/
theorem put_create_revision_equals_new_revision :
    (DistributedConfig.put initStore "a" "1" none).1 = some 1
  ∧ (DistributedConfig.put stA1 "a" "2" none).1 = some 2
  ∧ DistributedConfig.get stA12 "a" none =
      some { key := "a", value := "2", version := 2, create_revision := 2,
             mod_revision := 2, lease_id := none, deleted := false } := by decide

/-- Claim C3 (code bug): the claim says `get_prefix(p)` returns exactly one
entry per live key (the latest), only for keys whose bytes begin with
`p`.  After `put("a","1"); put("a","2")` the code returns both rows of
key `"a"` (the superseded value included), and because the argument is
interpolated into a SQL LIKE pattern, the prefixes `"%"` and `"_"` match
the key `"a"` even though `"a"` does not begin with those bytes. -/
theorem get_pre_returns_every_live_row :
    DistributedConfig.get_pre stA12 "a" =
      [{ key := "a", value := "1", version := 1, create_revision := 1,
         mod_revision := 1, lease_id := none, deleted := false },
       { key := "a", value := "2", version := 2, create_revision := 2,
         mod_revision := 2, lease_id := none, deleted := false }]
  ∧ DistributedConfig.get_pre stA1 "%" =
      [{ key := "a", value := "1", version := 1, create_revision := 1,
         mod_revision := 1, lease_id := none, deleted := false }]
  ∧ DistributedConfig.get_pre stA1 "_" =
      [{ key := "a", value := "1", version := 1, create_revision := 1,
         mod_revision := 1, lease_id := none, deleted := false }] := by decide

/-- Claim C4 (code bug): the claim describes watch delivery from the
revision log, but the polling query in `DistributedConfig.watch` selects
a column `value` that the `revisions` table does not have, so the query
raises `sqlite3.OperationalError` on every poll and no event is ever
delivered (moreover line 275 would assign the `operation` string, not a
revision, to `last_revision`). -/
theorem watch_select_references_missing_column :
    watchSelectColumns.contains "value" = true
  ∧ revisionsTableColumns.contains "value" = false := by decide

/-- Claim C5 (code bug): the claim says a mutation whose revision-log
append does not commit has not happened and does not advance the
revision counter.  A range delete over two live keys inserts two log
records with the same primary-key revision: the transaction fails and is
rolled back (kv and log unchanged, the call raises), yet `self.revision`
keeps its incremented value 3. -/
theorem range_delete_raises_but_advances_revision :
    (DistributedConfig.delete stAB "a" (some "c")).1 = none
  ∧ (DistributedConfig.delete stAB "a" (some "c")).2.revision = 3
  ∧ (DistributedConfig.delete stAB "a" (some "c")).2.kv = stAB.kv
  ∧ (DistributedConfig.delete stAB "a" (some "c")).2.log = stAB.log := by decide

/-- Claim C7 counterexample: the claim says `compact(r)` fails with
FutureRevision when `r` exceeds the current revision, keeping
`compacted_revision ≤ current_revision`.  The code has no such check:
`compact(5)` on a fresh store (revision 0) succeeds and leaves
`compacted_rev = 5 > 0`. -/
theorem compact_accepts_future_revision :
    ¬ ((DistributedConfig.compact initStore 5).compacted_rev
        ≤ (DistributedConfig.compact initStore 5).revision) := by decide

/-- Claim C8 counterexample: the claim says a put with a `lease_id` that
names no existing lease fails with LeaseNotFound.  The code's
`_add_key_to_lease` silently does nothing when the lease row is absent:
the put succeeds (returns revision 1) and the lease table stays empty. -/
theorem put_unknown_lease_raises_no_error :
    (DistributedConfig.put initStore "k" "v" (some "nosuch")).1 = some 1
  ∧ (DistributedConfig.put initStore "k" "v" (some "nosuch")).2.leases = [] := by decide

lemma latestBy_step_mem (acc : Option KVRow) (x r : KVRow)
    (h : (match acc with
          | none => some x
          | some b => if b.mod_revision < x.mod_revision then some x else some b) = some r) :
    r = x ∨ acc = some r := by
  cases acc with
  | none => simp only [Option.some.injEq] at h; exact Or.inl h.symm
  | some b =>
    by_cases hb : b.mod_revision < x.mod_revision
    · simp only [hb, if_true, Option.some.injEq] at h; exact Or.inl h.symm
    · simp only [hb, if_false, Option.some.injEq] at h; exact Or.inr (by rw [h])

lemma latestBy_foldl_mem (l : List KVRow) :
    ∀ (acc : Option KVRow) (r : KVRow),
      l.foldl
        (fun acc r =>
          match acc with
          | none => some r
          | some b => if b.mod_revision < r.mod_revision then some r else some b)
        acc = some r →
      r ∈ l ∨ acc = some r := by
  induction l with
  | nil => intro acc r h; exact Or.inr h
  | cons x xs ih =>
    intro acc r h
    rw [List.foldl_cons] at h
    rcases ih _ r h with h1 | h1
    · exact Or.inl (List.mem_cons_of_mem _ h1)
    · rcases latestBy_step_mem acc x r h1 with h2 | h2
      · exact Or.inl (h2 ▸ List.mem_cons_self _ _)
      · exact Or.inr h2

lemma latestBy_mem {l : List KVRow} {r : KVRow} (h : latestBy l = some r) : r ∈ l := by
  rcases latestBy_foldl_mem l none r h with h1 | h1
  · exact h1
  · cases h1

lemma kvInsertOk_of_bound {kv : List KVRow} {n : Nat}
    (h : ∀ r ∈ kv, r.mod_revision ≤ n) {row : KVRow} (hm : row.mod_revision = n + 1) :
    kvInsertOk kv row = true := by
  have hfalse : (kv.any fun r => r.key == row.key && r.mod_revision == row.mod_revision) = false := by
    rw [List.any_eq_false]
    intro r hr
    have hb := h r hr
    simp only [Bool.and_eq_true, beq_iff_eq, not_and]
    intro _
    omega
  simp [kvInsertOk, hfalse]

lemma logInsertOk_of_bound {log : List RevRecord} {n : Nat}
    (h : ∀ r ∈ log, r.revision ≤ n) {entry : RevRecord} (hm : entry.revision = n + 1) :
    logInsertOk log entry = true := by
  have hfalse : (log.any fun r => r.revision == entry.revision) = false := by
    rw [List.any_eq_false]
    intro r hr
    have hb := h r hr
    simp only [beq_iff_eq]
    omega
  simp [logInsertOk, hfalse]

lemma put_eq_of_bounded {s : Store} (h : RevBounded s) (k v : String) (lid : Option String) :
    DistributedConfig.put s k v lid = (some (s.revision + 1), putSucc s k v lid) := by
  have h1 : kvInsertOk s.kv
      { key := k, value := v, version := putVersion s k, create_revision := s.revision + 1,
        mod_revision := s.revision + 1, lease_id := lid, deleted := false } = true :=
    kvInsertOk_of_bound h.1 rfl
  have h2 : logInsertOk s.log
      { revision := s.revision + 1, operation := "put", key := k,
        details := some (putVersion s k) } = true :=
    logInsertOk_of_bound h.2 rfl
  simp only [DistributedConfig.put, h1, h2, Bool.and_self, if_true]
  simp [putSucc, putRow, putRec, putLeases]

lemma delete_single_eq_of_bounded {s : Store} (h : RevBounded s) (k : String) :
    DistributedConfig.delete s k none = (some (s.revision + 1), delSucc s k) := by
  have h2 : logInsertOk s.log
      { revision := s.revision + 1, operation := "delete", key := k, details := none } = true :=
    logInsertOk_of_bound h.2 rfl
  simp only [DistributedConfig.delete, deleteKeysList, applyDeletes, h2, if_true]
  simp [delSucc, delRec]

lemma put_snd_cases (s : Store) (k v : String) (lid : Option String) :
    (DistributedConfig.put s k v lid).2 = putSucc s k v lid
  ∨ (DistributedConfig.put s k v lid).2 = { s with revision := s.revision + 1 } := by
  simp only [DistributedConfig.put]
  split
  · left; simp [putSucc, putRow, putRec, putLeases]
  · right; rfl

lemma applyDeletes_kv_mem {rev : Nat} {keys : List String} :
    ∀ {kv : List KVRow} {log : List RevRecord} {kv' : List KVRow} {log' : List RevRecord},
      applyDeletes rev keys kv log = some (kv', log') →
      ∀ r' ∈ kv', ∃ r ∈ kv,
        r'.create_revision = r.create_revision ∧ r'.mod_revision = r.mod_revision := by
  induction keys with
  | nil =>
    intro kv log kv' log' h r' hr'
    simp only [applyDeletes, Option.some.injEq, Prod.mk.injEq] at h
    exact ⟨r', h.1 ▸ hr', rfl, rfl⟩
  | cons k ks ih =>
    intro kv log kv' log' h r' hr'
    simp only [applyDeletes] at h
    split at h
    · rcases ih h r' hr' with ⟨y, hy, h1, h2⟩
      rcases List.mem_map.mp hy with ⟨x, hx, hxy⟩
      refine ⟨x, hx, ?_, ?_⟩
      · rw [h1, ← hxy]; unfold markDeleted; split <;> rfl
      · rw [h2, ← hxy]; unfold markDeleted; split <;> rfl
    · cases h

lemma applyDeletes_log_mem {rev : Nat} {keys : List String} :
    ∀ {kv : List KVRow} {log : List RevRecord} {kv' : List KVRow} {log' : List RevRecord},
      applyDeletes rev keys kv log = some (kv', log') →
      ∀ e ∈ log', e ∈ log ∨ e.revision = rev := by
  induction keys with
  | nil =>
    intro kv log kv' log' h e he
    simp only [applyDeletes, Option.some.injEq, Prod.mk.injEq] at h
    exact Or.inl (h.2 ▸ he)
  | cons k ks ih =>
    intro kv log kv' log' h e he
    simp only [applyDeletes] at h
    split at h
    · rcases ih h e he with h1 | h1
      · rcases List.mem_append.mp h1 with h2 | h2
        · exact Or.inl h2
        · right
          have h3 : e = { revision := rev, operation := "delete", key := k, details := none } := by
            simpa using h2
          rw [h3]
      · exact Or.inr h1
    · cases h

lemma delete_snd_cases (s : Store) (k : String) (e : Option String) :
    (∃ kv' log',
        applyDeletes (s.revision + 1) (deleteKeysList s k e) s.kv s.log = some (kv', log')
      ∧ (DistributedConfig.delete s k e).2 =
          { s with kv := kv', log := log', revision := s.revision + 1 })
  ∨ (DistributedConfig.delete s k e).2 = { s with revision := s.revision + 1 } := by
  simp only [DistributedConfig.delete]
  rcases happ : applyDeletes (s.revision + 1) (deleteKeysList s k e) s.kv s.log with _ | ⟨kv', log'⟩
  · right; rfl
  · exact Or.inl ⟨kv', log', rfl, rfl⟩

lemma revBounded_put (s : Store) (k v : String) (lid : Option String) (h : RevBounded s) :
    RevBounded (DistributedConfig.put s k v lid).2 := by
  rcases put_snd_cases s k v lid with hc | hc <;> rw [hc]
  · refine ⟨?_, ?_⟩
    · intro r hr
      dsimp only [putSucc] at hr ⊢
      rcases List.mem_append.mp hr with h1 | h1
      · have := h.1 r h1; omega
      · have hr2 : r = putRow s k v lid := by simpa using h1
        rw [hr2]; dsimp only [putRow]; omega
    · intro r hr
      dsimp only [putSucc] at hr ⊢
      rcases List.mem_append.mp hr with h1 | h1
      · have := h.2 r h1; omega
      · have hr2 : r = putRec s k := by simpa using h1
        rw [hr2]; dsimp only [putRec]; omega
  · refine ⟨?_, ?_⟩
    · intro r hr
      dsimp only at hr ⊢
      have := h.1 r hr; omega
    · intro r hr
      dsimp only at hr ⊢
      have := h.2 r hr; omega

lemma revBounded_delete (s : Store) (k : String) (e : Option String) (h : RevBounded s) :
    RevBounded (DistributedConfig.delete s k e).2 := by
  rcases delete_snd_cases s k e with ⟨kv', log', happ, hc⟩ | hc <;> rw [hc]
  · refine ⟨?_, ?_⟩
    · intro r hr
      dsimp only at hr ⊢
      rcases applyDeletes_kv_mem happ r hr with ⟨x, hx, _, hm⟩
      have := h.1 x hx; omega
    · intro r hr
      dsimp only at hr ⊢
      rcases applyDeletes_log_mem happ r hr with h1 | h1
      · have := h.2 r h1; omega
      · omega
  · refine ⟨?_, ?_⟩
    · intro r hr
      dsimp only at hr ⊢
      have := h.1 r hr; omega
    · intro r hr
      dsimp only at hr ⊢
      have := h.2 r hr; omega

lemma clauseHolds_step (s : Store) (key op value : String) (b : Bool) :
    (if op == "==" && (match DistributedConfig.get s key none with
                       | none => true
                       | some e => !(e.value == value)) then false
     else if op == "!=" && (match DistributedConfig.get s key none with
                            | none => false
                            | some e => e.value == value) then false
     else b)
      = (b && clauseHolds s (key, op, value)) := by
  simp only [clauseHolds]
  rcases hop : (op == "==") with _ | _
  · rcases hne : (op == "!=") with _ | _
    · cases hget : DistributedConfig.get s key none <;> simp [hop, hne]
    · cases hget : DistributedConfig.get s key none with
      | none => simp [hop, hne]
      | some e => rcases hv : (e.value == value) with _ | _ <;> simp [hop, hne, hv]
  · have hne : (op == "!=") = false := by
      have hop' : op = "==" := by simpa using hop
      subst hop'
      decide
    cases hget : DistributedConfig.get s key none with
    | none => simp [hop, hne]
    | some e => rcases hv : (e.value == value) with _ | _ <;> simp [hop, hne, hv]

lemma compareLoop_eq_all (s : Store) (cs : List (String × String × String)) :
    ∀ b : Bool, compareLoop s cs b = (b && cs.all (clauseHolds s)) := by
  induction cs with
  | nil => intro b; simp [compareLoop]
  | cons c cs ih =>
    intro b
    obtain ⟨key, op, value⟩ := c
    simp only [compareLoop]
    rw [ih, clauseHolds_step s key op value b, List.all_cons]
    rw [Bool.and_assoc]

lemma applyTxnOps_eq (ops : List (String × String × String)) :
    ∀ (s : Store), RevBounded s → ∀ (acc : List (String × Nat)),
      (applyTxnOps ops s acc).1 = some (acc ++ txnExpectedResults s.revision ops)
    ∧ (applyTxnOps ops s acc).2.revision = s.revision + countMut ops
    ∧ RevBounded (applyTxnOps ops s acc).2 := by
  induction ops with
  | nil =>
    intro s h acc
    refine ⟨?_, ?_, ?_⟩
    · simp [applyTxnOps, txnExpectedResults]
    · simp [applyTxnOps, countMut]
    · simpa [applyTxnOps] using h
  | cons op ops ih =>
    intro s h acc
    obtain ⟨op_type, key, value⟩ := op
    rcases hput : (op_type == "put") with _ | _
    · rcases hdel : (op_type == "delete") with _ | _
      · simp only [applyTxnOps, hput, hdel, Bool.false_eq_true, if_false]
        have hres := ih s h acc
        simp only [txnExpectedResults, countMut, hput, hdel, Bool.or_self,
          Bool.false_eq_true, if_false, Nat.zero_add]
        exact hres
      · simp only [applyTxnOps, hput, hdel, Bool.false_eq_true, if_false, if_true]
        rw [delete_single_eq_of_bounded h key]
        have hb' : RevBounded (delSucc s key) := by
          have hd := revBounded_delete s key none h
          rw [delete_single_eq_of_bounded h key] at hd
          exact hd
        have hres := ih (delSucc s key) hb' (acc ++ [(key, s.revision + 1)])
        have hrev : (delSucc s key).revision = s.revision + 1 := rfl
        rw [hrev] at hres
        simp only [txnExpectedResults, countMut, hput, hdel, Bool.false_or, if_true]
        refine ⟨?_, ?_, hres.2.2⟩
        · rw [hres.1]
          simp
        · rw [hres.2.1]
          omega
    · simp only [applyTxnOps, hput, if_true]
      rw [put_eq_of_bounded h key value none]
      have hb' : RevBounded (putSucc s key value none) := by
        have hp := revBounded_put s key value none h
        rw [put_eq_of_bounded h key value none] at hp
        exact hp
      have hres := ih (putSucc s key value none) hb' (acc ++ [(key, s.revision + 1)])
      have hrev : (putSucc s key value none).revision = s.revision + 1 := rfl
      rw [hrev] at hres
      simp only [txnExpectedResults, countMut, hput, Bool.true_or, if_true]
      refine ⟨?_, ?_, hres.2.2⟩
      · rw [hres.1]
        simp
      · rw [hres.2.1]
        omega

/-- Claim C6 (confirmed): for every `txn(compares, on_success, on_failure)`,
`succeeded` is the conjunction of the compare clauses (`==` false on an
absent key, `!=` true on an absent key, both judged against the latest
live value), the `on_success` ops are applied in order exactly when all
clauses pass (else `on_failure`, nothing when omitted), and each applied
put or delete consumes its own revision and contributes one
`(key, revision)` record to `results` in application order. -/
theorem txn_semantics (s : Store) (h : RevBounded s)
    (compare success_ops : List (String × String × String))
    (failure_ops : Option (List (String × String × String))) :
    (DistributedConfig.txn s compare success_ops failure_ops).1.1 = compare.all (clauseHolds s)
  ∧ (DistributedConfig.txn s compare success_ops failure_ops).1.2 =
      some (txnExpectedResults s.revision (txnBranch s compare success_ops failure_ops))
  ∧ (DistributedConfig.txn s compare success_ops failure_ops).2.revision =
      s.revision + countMut (txnBranch s compare success_ops failure_ops) := by
  have hcl : compareLoop s compare true = compare.all (clauseHolds s) := by
    rw [compareLoop_eq_all]; simp
  have hops := applyTxnOps_eq (txnBranch s compare success_ops failure_ops) s h []
  simp only [txnBranch] at hops
  refine ⟨?_, ?_, ?_⟩
  · simp only [DistributedConfig.txn, hcl]
  · simp only [DistributedConfig.txn, hcl, txnBranch]
    rw [hops.1]
    simp
  · simp only [DistributedConfig.txn, hcl, txnBranch]
    rw [hops.2.1]

/-- Witness for txn_semantics: the concrete transaction
`txn([("k","==","a")], [("put","k","b")], [("put","k","z")])` on a store
holding `k = "a"` at revision 1. -/
theorem txn_semantics_witness :
    (DistributedConfig.txn stK [("k", "==", "a")] [("put", "k", "b")]
        (some [("put", "k", "z")])).1.1
      = List.all [("k", "==", "a")] (clauseHolds stK)
  ∧ (DistributedConfig.txn stK [("k", "==", "a")] [("put", "k", "b")]
        (some [("put", "k", "z")])).1.2
      = some (txnExpectedResults stK.revision
          (txnBranch stK [("k", "==", "a")] [("put", "k", "b")] (some [("put", "k", "z")])))
  ∧ (DistributedConfig.txn stK [("k", "==", "a")] [("put", "k", "b")]
        (some [("put", "k", "z")])).2.revision
      = stK.revision + countMut
          (txnBranch stK [("k", "==", "a")] [("put", "k", "b")] (some [("put", "k", "z")])) :=
  txn_semantics stK ⟨by decide, by decide⟩ [("k", "==", "a")] [("put", "k", "b")]
    (some [("put", "k", "z")])

lemma filter_live_markDeleted (kv : List KVRow) (k : String) :
    ((kv.map (markDeleted k)).filter fun r => r.key == k && !r.deleted) = [] := by
  rw [List.filter_eq_nil_iff]
  intro r hr
  rcases List.mem_map.mp hr with ⟨x, hx, hxr⟩
  subst hxr
  unfold markDeleted
  rcases hk : (x.key == k) with _ | _ <;> simp [hk]

lemma putVersion_delSucc (s : Store) (k : String) : putVersion (delSucc s k) k = 1 := by
  unfold putVersion
  have hkv : (delSucc s k).kv = s.kv.map (markDeleted k) := rfl
  rw [hkv, filter_live_markDeleted]
  rfl

/-- Claim C9 (confirmed): after `delete(k)` and then `put(k, v)` the new
entry has `version = 1` and `create_revision` equal to its own
`mod_revision` (both the fresh revision); concretely
`put("a","1") = 1; delete("a") = 2; get("a")` absent;
`put("a","3") = 3; get("a")` yields version 1, create_revision 3,
mod_revision 3. -/
theorem post_delete_rebirth (s : Store) (h : RevBounded s) (k v : String) :
    ((DistributedConfig.put (DistributedConfig.delete s k none).2 k v none).1
        = some (s.revision + 2)
  ∧ DistributedConfig.get (DistributedConfig.put (DistributedConfig.delete s k none).2 k v none).2
        k none
      = some { key := k, value := v, version := 1, create_revision := s.revision + 2,
               mod_revision := s.revision + 2, lease_id := none, deleted := false })
  ∧ ((DistributedConfig.put initStore "a" "1" none).1 = some 1
  ∧ (DistributedConfig.delete stA1 "a" none).1 = some 2
  ∧ DistributedConfig.get stA1del "a" none = none
  ∧ (DistributedConfig.put stA1del "a" "3" none).1 = some 3
  ∧ DistributedConfig.get (DistributedConfig.put stA1del "a" "3" none).2 "a" none
      = some { key := "a", value := "3", version := 1, create_revision := 3,
               mod_revision := 3, lease_id := none, deleted := false }) := by
  have hb' : RevBounded (delSucc s k) := by
    have hd := revBounded_delete s k none h
    rw [delete_single_eq_of_bounded h k] at hd
    exact hd
  have hdrev : (delSucc s k).revision = s.revision + 1 := rfl
  refine ⟨⟨?_, ?_⟩, by decide⟩
  · rw [delete_single_eq_of_bounded h k]
    dsimp only
    rw [put_eq_of_bounded hb' k v none, hdrev]
  · rw [delete_single_eq_of_bounded h k]
    dsimp only
    rw [put_eq_of_bounded hb' k v none]
    dsimp only
    have hrow : putRow (delSucc s k) k v none
        = { key := k, value := v, version := 1, create_revision := s.revision + 2,
            mod_revision := s.revision + 2, lease_id := none, deleted := false } := by
      unfold putRow
      rw [putVersion_delSucc, hdrev]
    have hkv : (putSucc (delSucc s k) k v none).kv
        = s.kv.map (markDeleted k) ++ [putRow (delSucc s k) k v none] := rfl
    simp only [DistributedConfig.get, hkv, List.filter_append, filter_live_markDeleted,
      List.nil_append, hrow]
    simp [latestBy]

/-- Witness for post_delete_rebirth on a fresh store and key `z`. -/
theorem post_delete_rebirth_witness :
    (DistributedConfig.put (DistributedConfig.delete initStore "z" none).2 "z" "w" none).1
      = some 2 :=
  (post_delete_rebirth initStore ⟨by decide, by decide⟩ "z" "w").1.1

/-- Claim C7 amended (corrected): `compact(r)` never fails — the code has
no FutureRevision check.  It sets `compacted_rev` to
`max(compacted_rev, r)`, purges exactly the revision-log records with
`revision ≤ r` (keeping the rest), touches neither `kv_entries` nor the
revision counter, and compacting twice at the same revision equals
compacting once.  When `r` exceeds the current revision,
`compacted_revision ≤ current_revision` is therefore violated. -/
theorem compact_behavior (s : Store) (r0 : Nat) :
    (DistributedConfig.compact s r0).compacted_rev = max s.compacted_rev r0
  ∧ (∀ e ∈ (DistributedConfig.compact s r0).log, ¬ e.revision ≤ r0)
  ∧ (∀ e ∈ s.log, ¬ e.revision ≤ r0 → e ∈ (DistributedConfig.compact s r0).log)
  ∧ (DistributedConfig.compact s r0).kv = s.kv
  ∧ (DistributedConfig.compact s r0).revision = s.revision
  ∧ DistributedConfig.compact (DistributedConfig.compact s r0) r0
      = DistributedConfig.compact s r0 := by
  refine ⟨rfl, ?_, ?_, rfl, rfl, ?_⟩
  · intro e he
    have hp := (List.mem_filter.mp he).2
    simpa using hp
  · intro e he hgt
    exact List.mem_filter.mpr ⟨he, by simpa using hgt⟩
  · simp only [DistributedConfig.compact]
    congr 1
    · rw [List.filter_filter]
      simp only [Bool.and_self]
    · rw [max_assoc, max_self]

lemma add_key_not_found {ls : List Lease} {lid : String} (k : String)
    (hf : ls.find? (fun l => l.id == lid) = none) :
    DistributedConfig.add_key_to_lease ls lid k = ls := by
  unfold DistributedConfig.add_key_to_lease
  rw [hf]

lemma add_key_found_contains {ls : List Lease} {lid k : String} {l : Lease}
    (hf : ls.find? (fun l => l.id == lid) = some l) (hc : l.keys.contains k = true) :
    DistributedConfig.add_key_to_lease ls lid k = ls := by
  unfold DistributedConfig.add_key_to_lease
  rw [hf]
  dsimp only
  rw [hc]
  simp

lemma add_key_found_new {ls : List Lease} {lid k : String} {l : Lease}
    (hf : ls.find? (fun l => l.id == lid) = some l) (hc : l.keys.contains k = false) :
    DistributedConfig.add_key_to_lease ls lid k
      = ls.map fun x => if x.id == lid then { x with keys := x.keys ++ [k] } else x := by
  unfold DistributedConfig.add_key_to_lease
  rw [hf]
  dsimp only
  rw [hc]
  simp

lemma find?_map_id_pred (ls : List Lease) (lid k : String) :
    (ls.map fun x => if x.id == lid then { x with keys := x.keys ++ [k] } else x).find?
        (fun l => l.id == lid)
      = Option.map (fun x => if x.id == lid then { x with keys := x.keys ++ [k] } else x)
          (ls.find? (fun l => l.id == lid)) := by
  rw [List.find?_map]
  have hpred : ((fun l : Lease => l.id == lid) ∘ fun x : Lease =>
      if x.id == lid then { x with keys := x.keys ++ [k] } else x)
      = (fun l : Lease => l.id == lid) := by
    funext x
    rcases h : (x.id == lid) with _ | _ <;> simp [Function.comp, h]
  rw [hpred]

lemma add_key_idem (ls : List Lease) (lid k : String) :
    DistributedConfig.add_key_to_lease (DistributedConfig.add_key_to_lease ls lid k) lid k
      = DistributedConfig.add_key_to_lease ls lid k := by
  rcases hf : ls.find? (fun l => l.id == lid) with _ | ⟨l⟩
  · rw [add_key_not_found k hf, add_key_not_found k hf]
  · have hpl := List.find?_some hf
    rcases hc : l.keys.contains k with _ | _
    · rw [add_key_found_new hf hc]
      have hff : ((ls.map fun x => if x.id == lid then { x with keys := x.keys ++ [k] } else x).find?
          (fun l => l.id == lid)) = some { l with keys := l.keys ++ [k] } := by
        rw [find?_map_id_pred, hf]
        simp only [Option.map_some']
        rw [hpl]
        simp
      have hcc : ({ l with keys := l.keys ++ [k] } : Lease).keys.contains k = true := by
        simp
      rw [add_key_found_contains hff hcc]
    · rw [add_key_found_contains hf hc, add_key_found_contains hf hc]

lemma find?_unique_of_nodup_ids {ls : List Lease} {lid : String}
    (hids : (ls.map Lease.id).Nodup) {l : Lease}
    (hf : ls.find? (fun x => x.id == lid) = some l) :
    ∀ x ∈ ls, (x.id == lid) = true → x = l := by
  induction ls with
  | nil => intro x hx; cases hx
  | cons y ys ih =>
    intro x hx hxid
    rcases hy : (y.id == lid) with _ | _
    · rw [List.find?_cons_of_neg ys (by simp [hy])] at hf
      rw [List.mem_cons] at hx
      rcases hx with hx1 | hx2
      · rw [hx1] at hxid; rw [hxid] at hy; cases hy
      · exact ih (List.Nodup.of_cons (by simpa using hids)) hf x hx2 hxid
    · rw [List.find?_cons_of_pos ys hy] at hf
      have hly : y = l := by injection hf
      rw [List.mem_cons] at hx
      rcases hx with hx1 | hx2
      · rw [hx1]; exact hly
      · exfalso
        have hyid : y.id = lid := by simpa using hy
        have hxid2 : x.id = lid := by simpa using hxid
        have hml : y.id ∈ ys.map Lease.id := by
          rw [hyid, ← hxid2]
          exact List.mem_map_of_mem Lease.id hx2
        rw [List.map_cons] at hids
        exact (List.nodup_cons.mp hids).1 hml

lemma add_key_nodup (ls : List Lease) (lid k : String)
    (hids : (ls.map Lease.id).Nodup) (hkeys : ∀ l ∈ ls, l.keys.Nodup) :
    ∀ l' ∈ DistributedConfig.add_key_to_lease ls lid k, l'.keys.Nodup := by
  rcases hf : ls.find? (fun x => x.id == lid) with _ | ⟨l⟩
  · rw [add_key_not_found k hf]; exact hkeys
  · rcases hc : l.keys.contains k with _ | _
    · rw [add_key_found_new hf hc]
      intro l' hl'
      rcases List.mem_map.mp hl' with ⟨x, hx, hxl'⟩
      subst hxl'
      rcases hxid : (x.id == lid) with _ | _
      · simp only [hxid, Bool.false_eq_true, if_false]
        exact hkeys x hx
      · have hxeq : x = l := find?_unique_of_nodup_ids hids hf x hx hxid
        subst hxeq
        simp only [hxid, if_true]
        have hkn : k ∉ x.keys := by
          simpa using hc
        exact List.Nodup.append (hkeys x hx) (List.nodup_singleton k)
          (List.disjoint_singleton.mpr hkn)
    · rw [add_key_found_contains hf hc]; exact hkeys

/-- Claim C8 amended (corrected): a put whose `lease_id` names no existing
lease does not fail — there is no LeaseNotFound and expiry is never
checked; the put succeeds and leaves the lease table unchanged.  When
the lease row exists, binding is idempotent (binding the same key twice
equals binding it once) and, for a well-formed lease table (unique ids,
duplicate-free key sets), no key is ever duplicated in a lease's key
set. -/
theorem lease_binding_behavior (s : Store) (h : RevBounded s) (k v lid : String) :
    ((s.leases.find? (fun l => l.id == lid) = none) →
        (DistributedConfig.put s k v (some lid)).1 = some (s.revision + 1)
      ∧ (DistributedConfig.put s k v (some lid)).2.leases = s.leases)
  ∧ DistributedConfig.add_key_to_lease (DistributedConfig.add_key_to_lease s.leases lid k) lid k
      = DistributedConfig.add_key_to_lease s.leases lid k
  ∧ ((s.leases.map Lease.id).Nodup → (∀ l ∈ s.leases, l.keys.Nodup) →
      ∀ l' ∈ (DistributedConfig.put s k v (some lid)).2.leases, l'.keys.Nodup) := by
  refine ⟨?_, add_key_idem s.leases lid k, ?_⟩
  · intro hf
    rw [put_eq_of_bounded h k v (some lid)]
    refine ⟨rfl, ?_⟩
    dsimp only [putSucc, putLeases]
    exact add_key_not_found k hf
  · intro hids hkeys
    rw [put_eq_of_bounded h k v (some lid)]
    dsimp only [putSucc, putLeases]
    exact add_key_nodup s.leases lid k hids hkeys

/-- Witness for lease_binding_behavior: rebinding key `k` to the existing
lease `lease-1` is a no-op. -/
theorem lease_binding_behavior_witness :
    DistributedConfig.add_key_to_lease
        (DistributedConfig.add_key_to_lease stLease.leases "lease-1" "k") "lease-1" "k"
      = DistributedConfig.add_key_to_lease stLease.leases "lease-1" "k" :=
  (lease_binding_behavior stLease ⟨by decide, by decide⟩ "k" "v" "lease-1").2.1

lemma cem_put (s : Store) (k v : String) (lid : Option String)
    (h : ∀ r ∈ s.kv, r.create_revision = r.mod_revision) :
    ∀ r ∈ (DistributedConfig.put s k v lid).2.kv, r.create_revision = r.mod_revision := by
  rcases put_snd_cases s k v lid with hc | hc <;> rw [hc]
  · intro r hr
    dsimp only [putSucc] at hr
    rcases List.mem_append.mp hr with h1 | h1
    · exact h r h1
    · have hr2 : r = putRow s k v lid := by simpa using h1
      rw [hr2]; rfl
  · intro r hr
    dsimp only at hr
    exact h r hr

lemma cem_delete (s : Store) (k : String) (e : Option String)
    (h : ∀ r ∈ s.kv, r.create_revision = r.mod_revision) :
    ∀ r ∈ (DistributedConfig.delete s k e).2.kv, r.create_revision = r.mod_revision := by
  rcases delete_snd_cases s k e with ⟨kv', log', happ, hc⟩ | hc <;> rw [hc]
  · intro r hr
    dsimp only at hr
    rcases applyDeletes_kv_mem happ r hr with ⟨x, hx, h1, h2⟩
    rw [h1, h2]
    exact h x hx
  · intro r hr
    dsimp only at hr
    exact h r hr

lemma cem_applyTxnOps (ops : List (String × String × String)) :
    ∀ (s : Store) (acc : List (String × Nat)),
      (∀ r ∈ s.kv, r.create_revision = r.mod_revision) →
      ∀ r ∈ (applyTxnOps ops s acc).2.kv, r.create_revision = r.mod_revision := by
  induction ops with
  | nil => intro s acc h; simpa [applyTxnOps] using h
  | cons op ops ih =>
    intro s acc h
    obtain ⟨op_type, key, value⟩ := op
    rcases hput : (op_type == "put") with _ | _
    · rcases hdel : (op_type == "delete") with _ | _
      · simp only [applyTxnOps, hput, hdel, Bool.false_eq_true, if_false]
        exact ih s acc h
      · simp only [applyTxnOps, hput, hdel, Bool.false_eq_true, if_false, if_true]
        have hd := cem_delete s key none h
        rcases hres : DistributedConfig.delete s key none with ⟨res, s'⟩
        rw [hres] at hd
        cases res with
        | some rev =>
          dsimp only
          exact ih s' _ hd
        | none =>
          dsimp only
          exact hd
    · simp only [applyTxnOps, hput, if_true]
      have hp := cem_put s key value none h
      rcases hres : DistributedConfig.put s key value none with ⟨res, s'⟩
      rw [hres] at hp
      cases res with
      | some rev =>
        dsimp only
        exact ih s' _ hp
      | none =>
        dsimp only
        exact hp

lemma cem_revokeLoop (ks : List String) :
    ∀ (s : Store), (∀ r ∈ s.kv, r.create_revision = r.mod_revision) →
      ∀ r ∈ (revokeLoop ks s).kv, r.create_revision = r.mod_revision := by
  induction ks with
  | nil => intro s h; simpa [revokeLoop] using h
  | cons k ks ih =>
    intro s h
    simp only [revokeLoop]
    exact ih _ (cem_delete s k none h)

lemma reachable_cem {s : Store} (h : Reachable s) :
    ∀ r ∈ s.kv, r.create_revision = r.mod_revision := by
  induction h with
  | init => intro r hr; cases hr
  | put s k v lid _ ih => exact cem_put s k v lid ih
  | delete s k e _ ih => exact cem_delete s k e ih
  | txn s c so fo _ ih =>
    simp only [DistributedConfig.txn]
    exact cem_applyTxnOps _ s [] ih
  | compact s r0 _ ih => intro r hr; exact ih r hr
  | grant s lid ttl _ ih =>
    simp only [DistributedConfig.grant_lease]
    split
    · exact ih
    · intro r hr; dsimp only at hr; exact ih r hr
  | revoke s lid _ ih =>
    simp only [DistributedConfig.revoke_lease]
    rcases hfind : s.leases.find? (fun l => l.id == lid) with _ | ⟨l⟩
    · rw [hfind]; intro r hr; dsimp only at hr; exact ih r hr
    · rw [hfind]; intro r hr; dsimp only at hr; exact cem_revokeLoop l.keys s ih r hr

lemma get_mem {s : Store} {k : String} {rev : Option Nat} {e : KVRow}
    (h : DistributedConfig.get s k rev = some e) : e ∈ s.kv := by
  unfold DistributedConfig.get at h
  cases rev with
  | none => exact (List.mem_filter.mp (latestBy_mem h)).1
  | some r0 => exact (List.mem_filter.mp (latestBy_mem h)).1

/-- Claim C10 (confirmed): every `kv_entries` row written by put has
`create_revision = mod_revision` (both the freshly allocated revision),
so in every reachable state every row — and hence every entry returned
by get, get_prefix, or list_revision_history — satisfies
`create_revision = mod_revision`; the spec's invariant
`create_revision ≤ mod_revision` holds, always with equality. -/
theorem create_revision_eq_mod_revision (s : Store) (h : Reachable s) :
    (∀ r ∈ s.kv, r.create_revision = r.mod_revision)
  ∧ (∀ k rev e, DistributedConfig.get s k rev = some e →
        e.create_revision = e.mod_revision)
  ∧ (∀ p e, e ∈ DistributedConfig.get_pre s p → e.create_revision = e.mod_revision)
  ∧ (∀ k lim e, e ∈ DistributedConfig.list_revision_history s k lim →
        e.create_revision = e.mod_revision) := by
  have hc := reachable_cem h
  refine ⟨hc, ?_, ?_, ?_⟩
  · intro k rev e he
    exact hc e (get_mem he)
  · intro p e he
    unfold DistributedConfig.get_pre at he
    rw [List.mem_insertionSort] at he
    exact hc e (List.mem_filter.mp he).1
  · intro k lim e he
    unfold DistributedConfig.list_revision_history at he
    have h2 := List.take_subset _ _ he
    rw [List.mem_insertionSort] at h2
    exact hc e (List.mem_filter.mp h2).1

/-- Witness for create_revision_eq_mod_revision: the entry returned by
`get("a")` after `put("a", "1")` on a fresh store. -/
theorem create_revision_eq_mod_revision_witness :
    ({ key := "a", value := "1", version := 1, create_revision := 1, mod_revision := 1,
       lease_id := none, deleted := false } : KVRow).create_revision
      = ({ key := "a", value := "1", version := 1, create_revision := 1, mod_revision := 1,
           lease_id := none, deleted := false } : KVRow).mod_revision :=
  (create_revision_eq_mod_revision stA1
      (Reachable.put initStore "a" "1" none Reachable.init)).2.1 "a" none
    { key := "a", value := "1", version := 1, create_revision := 1, mod_revision := 1,
      lease_id := none, deleted := false } (by decide)

lemma revBounded_txn (s : Store) (c so : List (String × String × String))
    (fo : Option (List (String × String × String))) (h : RevBounded s) :
    RevBounded (DistributedConfig.txn s c so fo).2 := by
  simp only [DistributedConfig.txn]
  exact (applyTxnOps_eq _ s h []).2.2

lemma revBounded_compact (s : Store) (r0 : Nat) (h : RevBounded s) :
    RevBounded (DistributedConfig.compact s r0) := by
  refine ⟨?_, ?_⟩
  · intro r hr
    exact h.1 r hr
  · intro r hr
    have hr2 : r ∈ s.log.filter (fun e => !(decide (e.revision ≤ r0))) := hr
    exact h.2 r (List.mem_filter.mp hr2).1

lemma revBounded_grant (s : Store) (lid : String) (ttl : Nat) (h : RevBounded s) :
    RevBounded (DistributedConfig.grant_lease s lid ttl).2 := by
  simp only [DistributedConfig.grant_lease]
  split
  · exact h
  · exact ⟨fun r hr => h.1 r hr, fun r hr => h.2 r hr⟩

lemma revBounded_revokeLoop (ks : List String) :
    ∀ (s : Store), RevBounded s → RevBounded (revokeLoop ks s) := by
  induction ks with
  | nil => intro s h; simpa [revokeLoop] using h
  | cons k ks ih =>
    intro s h
    simp only [revokeLoop]
    exact ih _ (revBounded_delete s k none h)

lemma revBounded_revoke (s : Store) (lid : String) (h : RevBounded s) :
    RevBounded (DistributedConfig.revoke_lease s lid) := by
  simp only [DistributedConfig.revoke_lease]
  rcases hfind : s.leases.find? (fun l => l.id == lid) with _ | ⟨l⟩
  · rw [hfind]
    exact ⟨fun r hr => h.1 r hr, fun r hr => h.2 r hr⟩
  · rw [hfind]
    have hl := revBounded_revokeLoop l.keys s h
    exact ⟨fun r hr => hl.1 r hr, fun r hr => hl.2 r hr⟩

lemma reachable_revBounded {s : Store} (h : Reachable s) : RevBounded s := by
  induction h with
  | init =>
    refine ⟨?_, ?_⟩ <;> intro r hr <;> cases hr
  | put s k v lid _ ih => exact revBounded_put s k v lid ih
  | delete s k e _ ih => exact revBounded_delete s k e ih
  | txn s c so fo _ ih => exact revBounded_txn s c so fo ih
  | compact s r0 _ ih => exact revBounded_compact s r0 ih
  | grant s lid ttl _ ih => exact revBounded_grant s lid ttl ih
  | revoke s lid _ ih => exact revBounded_revoke s lid ih
